import Mathlib

/-!
Verification development for the RBF image recolorization engine
(recolorizer.py): kernel functions, kernel-matrix assembly, the
regularized coefficient solve, and the full-grid prediction step.

Numeric arrays are modelled over the reals; greyscale maps are uint8
arrays produced by indexing a PIL image, so the numpy subtraction
`greyscale_x - greyscale_y` inside `kernel` is 8-bit wraparound
arithmetic, modelled here as subtraction modulo 256.
-/

namespace Recolor

/-- Wraparound subtraction on uint8 values, as numpy performs it on two
uint8 arrays: the result of `a - b` is `(a - b) mod 256`.  `np.abs` is
the identity on uint8, so this is exactly the quantity the code raises
to the power `p` inside `kernel`. -/
def u8sub (a b : ℕ) : ℕ := (((a : ℤ) - (b : ℤ)) % 256).toNat

/-- Exact absolute difference of two intensity values, the quantity the
specification formula uses. -/
def absDiff (a b : ℕ) : ℕ := ((a : ℤ) - (b : ℤ)).natAbs

/-- Gaussian RBF from the source: `np.exp(-r*r)`. -/
noncomputable def phi_gaussian (r : ℝ) : ℝ := Real.exp (-(r * r))

/-- Wendland function from the source:
`np.power(np.maximum(1 - r, 0), 4) * (4*r + 1)`. -/
noncomputable def phi_wendland (r : ℝ) : ℝ := (max (1 - r) 0) ^ 4 * (4 * r + 1)

/-- Euclidean distance between two pixel positions, as
`scipy.spatial.distance.cdist` computes it with metric "euclidean". -/
noncomputable def euclid (a b : ℕ × ℕ) : ℝ :=
  Real.sqrt (((a.1 : ℝ) - (b.1 : ℝ)) ^ 2 + ((a.2 : ℝ) - (b.2 : ℝ)) ^ 2)

/-- The kernel matrix from the source function `kernel`:
`K = phi(cdist(x, y) / (sig1 * sqrt(H^2 + W^2))) * phi(np.abs(gx - gy) ** p / (sig2 * 255 ** p))`
where `H, W = np.shape(greyscale_map)` and `gx - gy` is uint8
wraparound subtraction (the greyscale map handed to this function by
the pipeline is a uint8 array). -/
noncomputable def kernel (phi : ℝ → ℝ) {m n : ℕ} (x : Fin m → ℕ × ℕ) (y : Fin n → ℕ × ℕ)
    (H W : ℕ) (g : ℕ → ℕ → ℕ) (sig1 sig2 p : ℝ) : Matrix (Fin m) (Fin n) ℝ :=
  Matrix.of fun i j =>
    phi (euclid (x i) (y j) / (sig1 * Real.sqrt ((H : ℝ) ^ 2 + (W : ℝ) ^ 2))) *
    phi (((u8sub (g (x i).1 (x i).2) (g (y j).1 (y j).2) : ℕ) : ℝ) ^ p / (sig2 * (255 : ℝ) ^ p))

/-- The kernel-matrix formula exactly as the specification states it,
with the intensity factor built from the exact absolute difference
`|g(x_i) - g(y_j)|` of the two intensity values. -/
noncomputable def kernelSpec (phi : ℝ → ℝ) {m n : ℕ} (x : Fin m → ℕ × ℕ) (y : Fin n → ℕ × ℕ)
    (H W : ℕ) (g : ℕ → ℕ → ℕ) (sig1 sig2 p : ℝ) : Matrix (Fin m) (Fin n) ℝ :=
  Matrix.of fun i j =>
    phi (euclid (x i) (y j) / (sig1 * Real.sqrt ((H : ℝ) ^ 2 + (W : ℝ) ^ 2))) *
    phi (((absDiff (g (x i).1 (x i).2) (g (y j).1 (y j).2) : ℕ) : ℝ) ^ p / (sig2 * (255 : ℝ) ^ p))

/-- One row of the sample set D: a pixel position (row, col) and its
known (R, G, B) colour, all int64 in the source (`get_D` returns
`np.int64(D)`). -/
structure Sample where
  pos : ℕ × ℕ
  color : Fin 3 → ℤ

/-- The matrix `f_s = D[:, 2:]` of known sample colours, one column per
channel, promoted to real for the solve. -/
noncomputable def colorMatrix {N : ℕ} (D : Fin N → Sample) : Matrix (Fin N) (Fin 3) ℝ :=
  Matrix.of fun i ch => ((D i).color ch : ℝ)

/-- The system matrix of the solve in `compute_as`:
`KD + delta * n * np.eye(n)`. -/
noncomputable def systemMatrix {N : ℕ} (D : Fin N → Sample) (H W : ℕ) (g : ℕ → ℕ → ℕ)
    (phi : ℝ → ℝ) (delta sig1 sig2 p : ℝ) : Matrix (Fin N) (Fin N) ℝ :=
  kernel phi (fun i => (D i).pos) (fun i => (D i).pos) H W g sig1 sig2 p +
    (delta * (N : ℝ)) • (1 : Matrix (Fin N) (Fin N) ℝ)

/-- The coefficient solve from the source `compute_as`:
`a_s = np.linalg.solve(KD + delta * n * np.eye(n), f_s)`.
`np.linalg.solve` raises on a singular matrix; on an invertible matrix
it returns the unique solution, modelled as multiplication by the
matrix inverse. -/
noncomputable def compute_as {N : ℕ} (D : Fin N → Sample) (H W : ℕ) (g : ℕ → ℕ → ℕ)
    (phi : ℝ → ℝ) (delta sig1 sig2 p : ℝ) : Matrix (Fin N) (Fin 3) ℝ :=
  (systemMatrix D H W g phi delta sig1 sig2 p)⁻¹ * colorMatrix D

/-- The prediction step from the source `get_Fs`: `Fs = Komega @ a_s`. -/
noncomputable def get_Fs {m N : ℕ} (Komega : Matrix (Fin m) (Fin N) ℝ)
    (a_s : Matrix (Fin N) (Fin 3) ℝ) : Matrix (Fin m) (Fin 3) ℝ :=
  Komega * a_s

/-- The row-major grid enumeration built in `recolorise` with
`np.meshgrid(..., indexing="ij")` followed by `column_stack`: flat
index k corresponds to position (k / W, k % W). -/
def pairs (W : ℕ) {HW : ℕ} : Fin HW → ℕ × ℕ := fun k => ((k : ℕ) / W, (k : ℕ) % W)

/-- Clip to [0, 255] then cast to uint8, from the source:
`np.uint8(np.clip(Fs, 0, 255))`.  On the clipped range the uint8 cast
truncates toward zero, i.e. takes the floor. -/
noncomputable def clipFloor (x : ℝ) : ℕ := (⌊min (255 : ℝ) (max 0 x)⌋).toNat

lemma pixelIdx_lt {H W : ℕ} (r : Fin H) (c : Fin W) : (r : ℕ) * W + (c : ℕ) < H * W :=
  calc (r : ℕ) * W + (c : ℕ) < (r : ℕ) * W + W := Nat.add_lt_add_left c.2 _
  _ = ((r : ℕ) + 1) * W := by ring
  _ ≤ H * W := Nat.mul_le_mul_right W r.2

/-- The full pipeline of the source `recolorise`, parametric in the
radial basis function and the regularization constant so that the
hard-coded choices of the entry point can be stated as theorems.
Reads channel 0 of the 3-channel greyscale image
(`np.asarray(greyscale_image)[:, :, 0]`), computes the coefficients,
builds the evaluation kernel matrix over the whole grid, predicts,
clips to [0, 255] and casts to uint8. -/
noncomputable def recoloriseWith (phi : ℝ → ℝ) (delta : ℝ) {N : ℕ} (D : Fin N → Sample)
    (H W : ℕ) (gimg : ℕ → ℕ → Fin 3 → ℕ) (sig1 sig2 p : ℝ) :
    Fin H → Fin W → Fin 3 → ℕ :=
  fun r c ch =>
    clipFloor
      (get_Fs
        (kernel phi (pairs W) (fun i => (D i).pos) H W (fun a b => gimg a b 0) sig1 sig2 p)
        (compute_as D H W (fun a b => gimg a b 0) phi delta sig1 sig2 p)
        ⟨(r : ℕ) * W + (c : ℕ), pixelIdx_lt r c⟩ ch)

/-- The entry point `recolorise(D, greyscale_image, sig1, sig2, p)` of
the source: the radial basis function is fixed to `phi_gaussian` by the
line `phi = phi_gaussian`, and the regularization constant is the
default `delta = 2 * 1e-4` of `compute_as`, which `recolorise` does not
override.  There is no kernel-kind or delta parameter. -/
noncomputable def recolorise {N : ℕ} (D : Fin N → Sample) (H W : ℕ)
    (gimg : ℕ → ℕ → Fin 3 → ℕ) (sig1 sig2 p : ℝ) : Fin H → Fin W → Fin 3 → ℕ :=
  recoloriseWith phi_gaussian (2e-4 : ℝ) D H W gimg sig1 sig2 p

/-! Basic evaluation lemmas for the kernel profiles. -/

lemma u8sub_self (a : ℕ) : u8sub a a = 0 := by
  simp [u8sub]

lemma euclid_self (a : ℕ × ℕ) : euclid a a = 0 := by
  simp [euclid]

lemma phi_gaussian_zero : phi_gaussian 0 = 1 := by
  simp [phi_gaussian]

lemma phi_wendland_zero : phi_wendland 0 = 1 := by
  norm_num [phi_wendland]

lemma phi_wendland_nonneg {r : ℝ} (hr : 0 ≤ r) : 0 ≤ phi_wendland r := by
  exact mul_nonneg (pow_nonneg (le_max_right _ _) 4) (by linarith)

lemma phi_wendland_of_one_le {r : ℝ} (h : 1 ≤ r) : phi_wendland r = 0 := by
  unfold phi_wendland
  rw [max_eq_right (by linarith : 1 - r ≤ 0)]
  ring

lemma phi_gaussian_antitone {r s : ℝ} (hr : 0 ≤ r) (hrs : r ≤ s) :
    phi_gaussian s ≤ phi_gaussian r := by
  unfold phi_gaussian
  exact Real.exp_le_exp.2 (by nlinarith [mul_self_le_mul_self hr hrs])

lemma wendland_poly_le {a b : ℝ} (ha : 0 ≤ a) (hab : a ≤ b) (hb : b ≤ 1) :
    a ^ 4 * (5 - 4 * a) ≤ b ^ 4 * (5 - 4 * b) := by
  have hba : 0 ≤ b - a := sub_nonneg.2 hab
  have hb1 : 0 ≤ 1 - b := sub_nonneg.2 hb
  have hb0 : 0 ≤ b := ha.trans hab
  have ha1 : 0 ≤ 1 - a := by linarith
  have t1 : 0 ≤ (b - a) * (b ^ 3 * (1 - b)) :=
    mul_nonneg hba (mul_nonneg (pow_nonneg hb0 3) hb1)
  have t2 : 0 ≤ (b - a) * (a * b ^ 2 * (1 - b)) :=
    mul_nonneg hba (mul_nonneg (mul_nonneg ha (pow_nonneg hb0 2)) hb1)
  have t3 : 0 ≤ (b - a) * (a ^ 2 * b * (1 - b)) :=
    mul_nonneg hba (mul_nonneg (mul_nonneg (pow_nonneg ha 2) hb0) hb1)
  have t4 : 0 ≤ (b - a) * (a ^ 3 * (1 - b)) :=
    mul_nonneg hba (mul_nonneg (pow_nonneg ha 3) hb1)
  have t5 : 0 ≤ (b - a) * ((b - a) * (b ^ 2 + a * b + a ^ 2)) :=
    mul_nonneg hba (mul_nonneg hba
      (add_nonneg (add_nonneg (pow_nonneg hb0 2) (mul_nonneg ha hb0)) (pow_nonneg ha 2)))
  have t6 : 0 ≤ (b - a) * (a * (b - a) * (a + b)) :=
    mul_nonneg hba (mul_nonneg (mul_nonneg ha hba) (add_nonneg ha hb0))
  have t7 : 0 ≤ (b - a) * (a ^ 2 * (b - a)) :=
    mul_nonneg hba (mul_nonneg (pow_nonneg ha 2) hba)
  have t8 : 0 ≤ (b - a) * (a ^ 3 * (1 - a)) :=
    mul_nonneg hba (mul_nonneg (pow_nonneg ha 3) ha1)
  nlinarith [t1, t2, t3, t4, t5, t6, t7, t8]

lemma phi_wendland_antitone {r s : ℝ} (hr : 0 ≤ r) (hrs : r ≤ s) :
    phi_wendland s ≤ phi_wendland r := by
  rcases le_or_lt 1 r with h1 | h1
  · rw [phi_wendland_of_one_le (h1.trans hrs), phi_wendland_of_one_le h1]
  rcases le_or_lt 1 s with h2 | h2
  · rw [phi_wendland_of_one_le h2]
    exact phi_wendland_nonneg hr
  · unfold phi_wendland
    rw [max_eq_left (by linarith : (0 : ℝ) ≤ 1 - r),
      max_eq_left (by linarith : (0 : ℝ) ≤ 1 - s)]
    calc (1 - s) ^ 4 * (4 * s + 1) = (1 - s) ^ 4 * (5 - 4 * (1 - s)) := by ring
    _ ≤ (1 - r) ^ 4 * (5 - 4 * (1 - r)) :=
        wendland_poly_le (by linarith) (by linarith) (by linarith)
    _ = (1 - r) ^ 4 * (4 * r + 1) := by ring

/-- C4: both radial profiles equal 1 at r = 0, both are non-increasing
on the nonnegative reals, and the Wendland profile vanishes for every
r at least 1. -/
theorem C4_phi_profiles :
    phi_gaussian 0 = 1 ∧ phi_wendland 0 = 1 ∧
    (∀ r s : ℝ, 0 ≤ r → r ≤ s → phi_gaussian s ≤ phi_gaussian r) ∧
    (∀ r s : ℝ, 0 ≤ r → r ≤ s → phi_wendland s ≤ phi_wendland r) ∧
    (∀ r : ℝ, 1 ≤ r → phi_wendland r = 0) :=
  ⟨phi_gaussian_zero, phi_wendland_zero,
   fun _ _ hr hrs => phi_gaussian_antitone hr hrs,
   fun _ _ hr hrs => phi_wendland_antitone hr hrs,
   fun _ h => phi_wendland_of_one_le h⟩

/-- Witness for C4: the profile facts instantiated at the concrete
radii r = 1 and s = 2. -/
theorem C4_phi_profiles_witness :
    phi_gaussian 2 ≤ phi_gaussian 1 ∧ phi_wendland 2 ≤ phi_wendland 1 ∧ phi_wendland 2 = 0 :=
  ⟨C4_phi_profiles.2.2.1 1 2 (by norm_num) (by norm_num),
   C4_phi_profiles.2.2.2.1 1 2 (by norm_num) (by norm_num),
   C4_phi_profiles.2.2.2.2 2 (by norm_num)⟩

/-! Output clipping and quantization. -/

lemma clipFloor_le (x : ℝ) : clipFloor x ≤ 255 := by
  unfold clipFloor
  rw [Int.toNat_le]
  calc ⌊min (255 : ℝ) (max 0 x)⌋ ≤ ⌊(255 : ℝ)⌋ := Int.floor_le_floor (min_le_left _ _)
  _ = 255 := by norm_num

/-- C3: every channel value of the image returned by `recolorise` is
the clip-to-[0,255]-then-floor quantization of the predicted real
value, hence lies in [0, 255] (the lower bound holds because the
output type is ℕ). -/
theorem C3_output_in_range {N : ℕ} (D : Fin N → Sample) (H W : ℕ)
    (gimg : ℕ → ℕ → Fin 3 → ℕ) (sig1 sig2 p : ℝ) (r : Fin H) (c : Fin W) (ch : Fin 3) :
    recolorise D H W gimg sig1 sig2 p r c ch =
      clipFloor
        (get_Fs
          (kernel phi_gaussian (pairs W) (fun i => (D i).pos) H W (fun a b => gimg a b 0)
            sig1 sig2 p)
          (compute_as D H W (fun a b => gimg a b 0) phi_gaussian (2e-4 : ℝ) sig1 sig2 p)
          ⟨(r : ℕ) * W + (c : ℕ), pixelIdx_lt r c⟩ ch) ∧
    recolorise D H W gimg sig1 sig2 p r c ch ≤ 255 :=
  ⟨rfl, clipFloor_le _⟩

/-! Absence of validation: the empty sample set flows through the
whole pipeline and produces the all-zero image. -/

lemma recolorise_empty (H W : ℕ) (gimg : ℕ → ℕ → Fin 3 → ℕ) (sig1 sig2 p : ℝ)
    (r : Fin H) (c : Fin W) (ch : Fin 3) :
    recolorise (fun i : Fin 0 => i.elim0) H W gimg sig1 sig2 p r c ch = 0 := by
  norm_num [recolorise, recoloriseWith, get_Fs, Matrix.mul_apply, clipFloor]

/-- C7 amended: `recolorise` performs no input validation and raises
no error on the empty sample set; the 0-column evaluation matrix makes
every predicted value an empty sum, so the pipeline runs to completion
and returns the all-zero (black) H times W image. -/
theorem C7_empty_sampleset_black_image (H W : ℕ) (gimg : ℕ → ℕ → Fin 3 → ℕ)
    (sig1 sig2 p : ℝ) (r : Fin H) (c : Fin W) (ch : Fin 3) :
    recolorise (fun i : Fin 0 => i.elim0) H W gimg sig1 sig2 p r c ch = 0 :=
  recolorise_empty H W gimg sig1 sig2 p r c ch

/-- C7 counterexample: on the empty sample set the entry point does
not stop before the kernel and evaluation stages; at the concrete
1 times 1 input the full pipeline runs and emits a pixel value,
contradicting the claim that an InvalidInput error is raised before
any matrix is built. -/
theorem C7_no_error_on_empty_sampleset :
    recolorise (fun i : Fin 0 => i.elim0) 1 1 (fun _ _ _ => 128) 1 1 1 0 0 0 = 0 :=
  recolorise_empty 1 1 (fun _ _ _ => 128) 1 1 1 0 0 0

/-- C10: the core reads only channel 0 of the 3-channel greyscale
input (`np.asarray(greyscale_image)[:, :, 0]`); two inputs with equal
channel-0 planes produce identical output images, so channels 1 and 2
never influence the result.  A strictly 2D array is not accepted by
the source (the `[:, :, 0]` indexing requires a third axis), which the
embedding reflects by typing the greyscale input with three channels. -/
theorem C10_only_channel0_matters {N : ℕ} (D : Fin N → Sample) (H W : ℕ)
    (g1 g2 : ℕ → ℕ → Fin 3 → ℕ) (sig1 sig2 p : ℝ)
    (h : ∀ a b : ℕ, g1 a b 0 = g2 a b 0) :
    recolorise D H W g1 sig1 sig2 p = recolorise D H W g2 sig1 sig2 p := by
  have hg : (fun a b => g1 a b 0) = (fun a b => g2 a b 0) := by
    funext a b
    exact h a b
  unfold recolorise recoloriseWith
  rw [hg]

/-- Witness for C10: two concrete greyscale inputs that differ in
channels 1 and 2 but agree on channel 0 yield the same output. -/
theorem C10_only_channel0_matters_witness :
    recolorise (fun _ : Fin 1 => ⟨(0, 0), fun _ => 7⟩) 1 1
        (fun _ _ ch => if ch = 0 then 5 else 9) 1 1 1 =
      recolorise (fun _ : Fin 1 => ⟨(0, 0), fun _ => 7⟩) 1 1
        (fun _ _ ch => if ch = 0 then 5 else 3) 1 1 1 :=
  C10_only_channel0_matters _ 1 1 _ _ 1 1 1 (fun _ _ => rfl)

/-! The regularized coefficient solve. -/

lemma kernel_same_point {m n : ℕ} (phi : ℝ → ℝ) (x : Fin m → ℕ × ℕ) (y : Fin n → ℕ × ℕ)
    (H W : ℕ) (g : ℕ → ℕ → ℕ) (sig1 sig2 p : ℝ) (i : Fin m) (j : Fin n)
    (hxy : x i = y j) (hp : p ≠ 0) :
    kernel phi x y H W g sig1 sig2 p i j = phi 0 * phi 0 := by
  simp only [kernel, Matrix.of_apply, hxy, euclid_self, u8sub_self, Nat.cast_zero, zero_div,
    Real.zero_rpow hp]

/-- C2: whenever the regularized system matrix is invertible (exactly
the case in which `np.linalg.solve` does not raise), `compute_as`
returns the unique N times 3 solution of
`(K_D + delta * N * I) a_s = F`. -/
theorem C2_compute_as_solves {N : ℕ} (D : Fin N → Sample) (H W : ℕ) (g : ℕ → ℕ → ℕ)
    (phi : ℝ → ℝ) (delta sig1 sig2 p : ℝ)
    (h : IsUnit (systemMatrix D H W g phi delta sig1 sig2 p).det) :
    systemMatrix D H W g phi delta sig1 sig2 p * compute_as D H W g phi delta sig1 sig2 p =
      colorMatrix D ∧
    ∀ B : Matrix (Fin N) (Fin 3) ℝ,
      systemMatrix D H W g phi delta sig1 sig2 p * B = colorMatrix D →
      B = compute_as D H W g phi delta sig1 sig2 p := by
  constructor
  · unfold compute_as
    rw [← Matrix.mul_assoc, Matrix.mul_nonsing_inv _ h, Matrix.one_mul]
  · intro B hB
    unfold compute_as
    rw [← hB, ← Matrix.mul_assoc, Matrix.nonsing_inv_mul _ h, Matrix.one_mul]

lemma systemMatrix_single (s : Sample) (H W : ℕ) (g : ℕ → ℕ → ℕ) (phi : ℝ → ℝ)
    (delta sig1 sig2 p : ℝ) (hp : p ≠ 0) (hphi : phi 0 = 1) :
    systemMatrix (fun _ : Fin 1 => s) H W g phi delta sig1 sig2 p =
      Matrix.of fun _ _ => 1 + delta := by
  ext i j
  fin_cases i
  fin_cases j
  rw [systemMatrix, Matrix.add_apply,
    kernel_same_point phi _ _ H W g sig1 sig2 p _ _ rfl hp, hphi]
  simp [Matrix.one_apply]

lemma systemMatrix_single_det (s : Sample) (H W : ℕ) (g : ℕ → ℕ → ℕ) (phi : ℝ → ℝ)
    (delta sig1 sig2 p : ℝ) (hp : p ≠ 0) (hphi : phi 0 = 1) :
    (systemMatrix (fun _ : Fin 1 => s) H W g phi delta sig1 sig2 p).det = 1 + delta := by
  rw [Matrix.det_fin_one, systemMatrix_single s H W g phi delta sig1 sig2 p hp hphi]
  rfl

/-- Witness for C2: the concrete one-sample system with delta = 1 has
determinant 2, so the hypothesis holds and the solve equation follows. -/
theorem C2_compute_as_solves_witness :
    IsUnit (systemMatrix (fun _ : Fin 1 => (⟨(0, 0), fun _ => 7⟩ : Sample)) 1 1 (fun _ _ => 0)
        phi_gaussian 1 1 1 1).det ∧
    systemMatrix (fun _ : Fin 1 => (⟨(0, 0), fun _ => 7⟩ : Sample)) 1 1 (fun _ _ => 0)
        phi_gaussian 1 1 1 1 *
      compute_as (fun _ : Fin 1 => (⟨(0, 0), fun _ => 7⟩ : Sample)) 1 1 (fun _ _ => 0)
        phi_gaussian 1 1 1 1 =
      colorMatrix (fun _ : Fin 1 => (⟨(0, 0), fun _ => 7⟩ : Sample)) := by
  have hu : IsUnit (systemMatrix (fun _ : Fin 1 => (⟨(0, 0), fun _ => 7⟩ : Sample)) 1 1
      (fun _ _ => 0) phi_gaussian 1 1 1 1).det := by
    rw [systemMatrix_single_det _ 1 1 _ phi_gaussian 1 1 1 1 one_ne_zero phi_gaussian_zero]
    exact isUnit_iff_ne_zero.2 (by norm_num)
  exact ⟨hu, (C2_compute_as_solves _ 1 1 _ phi_gaussian 1 1 1 1 hu).1⟩

/-! Evaluation of the one-sample pipeline. -/

lemma inv_fin_one (A : Matrix (Fin 1) (Fin 1) ℝ) :
    A⁻¹ = Matrix.of fun _ _ => (A 0 0)⁻¹ := by
  rw [Matrix.inv_def, Matrix.det_fin_one, Matrix.adjugate_fin_one, Ring.inverse_eq_inv]
  ext i j
  fin_cases i
  fin_cases j
  simp

lemma compute_as_single (s : Sample) (H W : ℕ) (g : ℕ → ℕ → ℕ) (phi : ℝ → ℝ)
    (delta sig1 sig2 p : ℝ) (hp : p ≠ 0) (hphi : phi 0 = 1) :
    compute_as (fun _ : Fin 1 => s) H W g phi delta sig1 sig2 p =
      Matrix.of fun _ ch => (1 + delta)⁻¹ * ((s.color ch : ℝ)) := by
  unfold compute_as
  rw [systemMatrix_single s H W g phi delta sig1 sig2 p hp hphi, inv_fin_one]
  ext i ch
  fin_cases i
  rw [Matrix.mul_apply, Fin.sum_univ_one]
  simp [colorMatrix]

lemma recoloriseWith_apply (phi : ℝ → ℝ) (delta : ℝ) {N : ℕ} (D : Fin N → Sample)
    (H W : ℕ) (gimg : ℕ → ℕ → Fin 3 → ℕ) (sig1 sig2 p : ℝ)
    (r : Fin H) (c : Fin W) (ch : Fin 3) :
    recoloriseWith phi delta D H W gimg sig1 sig2 p r c ch =
      clipFloor (∑ j,
        kernel phi (pairs W) (fun i => (D i).pos) H W (fun a b => gimg a b 0) sig1 sig2 p
          ⟨(r : ℕ) * W + (c : ℕ), pixelIdx_lt r c⟩ j *
        compute_as D H W (fun a b => gimg a b 0) phi delta sig1 sig2 p j ch) := by
  unfold recoloriseWith get_Fs
  rw [Matrix.mul_apply]

/-- The colour sample of the concrete scenario: position (5, 5) with
colour (200, 50, 10). -/
def c9sample : Sample := ⟨(5, 5), ![200, 50, 10]⟩

/-- The 10 by 10 constant greyscale input of the concrete scenario:
every intensity is 128 (all three stored channels equal, as produced
by the RGB-to-greyscale conversion). -/
def c9img : ℕ → ℕ → Fin 3 → ℕ := fun _ _ _ => 128

/-- C9: on the 10 by 10 constant-128 map with the single sample
(5, 5, 200, 50, 10), sig1 = sig2 = 100, p = 1/2, delta = 2e-4 and the
gaussian kernel, the training matrix is the 1 by 1 matrix [1], the
coefficient matrix is (200, 50, 10) scaled by (1 + 0.0002)⁻¹, and the
output pixel at (5, 5) is within 1 of (200, 50, 10) on the 8-bit
scale. -/
theorem C9_concrete_scenario :
    (kernel phi_gaussian (fun _ : Fin 1 => c9sample.pos) (fun _ : Fin 1 => c9sample.pos) 10 10
        (fun a b => c9img a b 0) 100 100 (1 / 2) = Matrix.of fun _ _ => 1) ∧
    (compute_as (fun _ : Fin 1 => c9sample) 10 10 (fun a b => c9img a b 0) phi_gaussian
        (2e-4 : ℝ) 100 100 (1 / 2) =
      Matrix.of fun _ ch => (1 + 2e-4 : ℝ)⁻¹ * ((c9sample.color ch : ℝ))) ∧
    ∀ ch : Fin 3,
      ((recolorise (fun _ : Fin 1 => c9sample) 10 10 c9img 100 100 (1 / 2)
          ⟨5, by norm_num⟩ ⟨5, by norm_num⟩ ch : ℤ) - c9sample.color ch).natAbs ≤ 1 := by
  refine ⟨?_, ?_, ?_⟩
  · ext i j
    fin_cases i
    fin_cases j
    rw [kernel_same_point phi_gaussian _ _ 10 10 _ 100 100 (1 / 2) _ _ rfl (by norm_num),
      phi_gaussian_zero]
    norm_num
  · exact compute_as_single c9sample 10 10 _ phi_gaussian (2e-4 : ℝ) 100 100 (1 / 2)
      (by norm_num) phi_gaussian_zero
  · have hout : ∀ ch : Fin 3,
        recolorise (fun _ : Fin 1 => c9sample) 10 10 c9img 100 100 (1 / 2)
          ⟨5, by norm_num⟩ ⟨5, by norm_num⟩ ch =
          clipFloor ((1 + 2e-4 : ℝ)⁻¹ * ((c9sample.color ch : ℝ))) := by
      intro ch
      unfold recolorise
      rw [recoloriseWith_apply, Fin.sum_univ_one,
        compute_as_single c9sample 10 10 _ phi_gaussian (2e-4 : ℝ) 100 100 (1 / 2)
          (by norm_num) phi_gaussian_zero,
        kernel_same_point phi_gaussian _ _ 10 10 _ 100 100 (1 / 2) _ _ (by decide)
          (by norm_num),
        phi_gaussian_zero]
      norm_num
    intro ch
    rw [hout ch]
    fin_cases ch <;>
      norm_num [clipFloor, c9sample, max_def, min_def, Int.floor_eq_iff,
        Int.toNat_ofNat]

/-! The uint8 wraparound in the intensity difference.  On the 1 by 2
greyscale map with intensities 0 and 255, numpy computes
`np.uint8(0) - np.uint8(255) = 1` while `np.uint8(255) - np.uint8(0) = 255`,
so the intensity factor of the kernel differs from the specified
`|g(x) - g(y)|` factor and depends on the operand order. -/

/-- Greyscale lookup of the two-pixel counterexample map: intensity 0
at column 0 and intensity 255 at column 1. -/
def cgrey : ℕ → ℕ → ℕ := fun _ c => if c = 0 then 0 else 255

lemma euclid01 : euclid (0, 0) (0, 1) = 1 := by
  rw [euclid]
  norm_num [Real.sqrt_one]

lemma euclid10 : euclid (0, 1) (0, 0) = 1 := by
  rw [euclid]
  norm_num [Real.sqrt_one]

lemma kernel_entry01 {m n : ℕ} (x : Fin m → ℕ × ℕ) (y : Fin n → ℕ × ℕ) (i : Fin m) (j : Fin n)
    (hx : x i = (0, 0)) (hy : y j = (0, 1)) :
    kernel phi_gaussian x y 1 2 cgrey 1 1 1 i j =
      phi_gaussian (1 / Real.sqrt 5) * phi_gaussian (1 / 255) := by
  simp only [kernel, Matrix.of_apply, hx, hy]
  rw [euclid01]
  congr 1
  · norm_num
  · congr 1
    norm_num [cgrey, u8sub, Real.rpow_one, Real.one_rpow]

lemma kernel_entry10 {m n : ℕ} (x : Fin m → ℕ × ℕ) (y : Fin n → ℕ × ℕ) (i : Fin m) (j : Fin n)
    (hx : x i = (0, 1)) (hy : y j = (0, 0)) :
    kernel phi_gaussian x y 1 2 cgrey 1 1 1 i j =
      phi_gaussian (1 / Real.sqrt 5) * phi_gaussian 1 := by
  simp only [kernel, Matrix.of_apply, hx, hy]
  rw [euclid10]
  congr 1
  · norm_num
  · congr 1
    simp [cgrey, u8sub, Real.rpow_one]

lemma kernelSpec_entry01 {m n : ℕ} (x : Fin m → ℕ × ℕ) (y : Fin n → ℕ × ℕ) (i : Fin m)
    (j : Fin n) (hx : x i = (0, 0)) (hy : y j = (0, 1)) :
    kernelSpec phi_gaussian x y 1 2 cgrey 1 1 1 i j =
      phi_gaussian (1 / Real.sqrt 5) * phi_gaussian 1 := by
  simp only [kernelSpec, Matrix.of_apply, hx, hy]
  rw [euclid01]
  congr 1
  · norm_num
  · congr 1
    norm_num [cgrey, absDiff, Real.rpow_one]

lemma phi_prod_ne :
    phi_gaussian (1 / Real.sqrt 5) * phi_gaussian (1 / 255) ≠
      phi_gaussian (1 / Real.sqrt 5) * phi_gaussian 1 := by
  have h : phi_gaussian 1 < phi_gaussian (1 / 255) := by
    unfold phi_gaussian
    exact Real.exp_lt_exp.2 (by norm_num)
  have hpos : 0 < phi_gaussian (1 / Real.sqrt 5) := by
    unfold phi_gaussian
    exact Real.exp_pos _
  exact (mul_lt_mul_of_pos_left h hpos).ne'

/-- C1 (code bug): on the uint8 greyscale map with intensities 0 and
255, the kernel entry uses the wrapped difference
`(0 - 255) mod 256 = 1` instead of the exact absolute difference 255,
so the computed entry differs from the formula
`phi(dist / (sig1 diag)) * phi(|g(x) - g(y)|^p / (sig2 255^p))` stated
by the claim and by the docstring of `kernel`. -/
theorem C1_kernel_entry_not_specified_formula :
    kernel phi_gaussian (fun _ : Fin 1 => ((0, 0) : ℕ × ℕ)) (fun _ : Fin 1 => ((0, 1) : ℕ × ℕ))
        1 2 cgrey 1 1 1 0 0 ≠
      kernelSpec phi_gaussian (fun _ : Fin 1 => ((0, 0) : ℕ × ℕ))
        (fun _ : Fin 1 => ((0, 1) : ℕ × ℕ)) 1 2 cgrey 1 1 1 0 0 := by
  rw [kernel_entry01 _ _ 0 0 rfl rfl, kernelSpec_entry01 _ _ 0 0 rfl rfl]
  exact phi_prod_ne

/-- C5 (code bug): the kernel matrix built from identical point sets is
not symmetric, because the uint8 intensity difference wraps around:
K[0,1] carries `phi(1/255)` while K[1,0] carries `phi(255/255)`. -/
theorem C5_kernel_matrix_not_symmetric :
    kernel phi_gaussian ![((0, 0) : ℕ × ℕ), (0, 1)] ![((0, 0) : ℕ × ℕ), (0, 1)]
        1 2 cgrey 1 1 1 0 1 ≠
      kernel phi_gaussian ![((0, 0) : ℕ × ℕ), (0, 1)] ![((0, 0) : ℕ × ℕ), (0, 1)]
        1 2 cgrey 1 1 1 1 0 := by
  rw [kernel_entry01 _ _ 0 1 rfl rfl, kernel_entry10 _ _ 1 0 rfl rfl]
  exact phi_prod_ne

/-- The two-sample set of the positive-definiteness counterexample:
samples at (0, 0) and (0, 1) of the two-pixel map `cgrey`. -/
def csamples : Fin 2 → Sample := ![⟨(0, 0), fun _ => 100⟩, ⟨(0, 1), fun _ => 200⟩]

/-- C6 (code bug): with delta = 1 > 0 the system matrix
`K_D + delta * 2 * I` over the two samples is not symmetric (the
off-diagonal kernel entries differ by the uint8 wraparound), hence it
is not symmetric positive definite as the claim states. -/
theorem C6_system_matrix_not_posdef :
    ¬ (systemMatrix csamples 1 2 cgrey phi_gaussian 1 1 1 1).PosDef := by
  intro hpd
  have h := hpd.1.apply 1 0
  rw [star_trivial] at h
  have h01 : systemMatrix csamples 1 2 cgrey phi_gaussian 1 1 1 1 0 1 =
      phi_gaussian (1 / Real.sqrt 5) * phi_gaussian (1 / 255) := by
    rw [systemMatrix, Matrix.add_apply, Matrix.smul_apply,
      Matrix.one_apply_ne (by decide : (0 : Fin 2) ≠ 1),
      kernel_entry01 _ _ 0 1 rfl rfl]
    simp
  have h10 : systemMatrix csamples 1 2 cgrey phi_gaussian 1 1 1 1 1 0 =
      phi_gaussian (1 / Real.sqrt 5) * phi_gaussian 1 := by
    rw [systemMatrix, Matrix.add_apply, Matrix.smul_apply,
      Matrix.one_apply_ne (by decide : (1 : Fin 2) ≠ 0),
      kernel_entry10 _ _ 1 0 rfl rfl]
    simp
  exact phi_prod_ne (h01 ▸ h10 ▸ h)

/-! The entry point has no kernel selection. -/

/-- C8 amended: `recolorise(D, greyscale_image, sig1, sig2, p)` exposes
only the bandwidth and exponent parameters; the radial basis function
is fixed to the gaussian by the line `phi = phi_gaussian` and the
regularization constant to the `compute_as` default `2 * 1e-4`; no
kernel-kind or delta argument exists on the entry point. -/
theorem C8_entry_point_is_fixed_gaussian {N : ℕ} (D : Fin N → Sample) (H W : ℕ)
    (gimg : ℕ → ℕ → Fin 3 → ℕ) (sig1 sig2 p : ℝ) :
    recolorise D H W gimg sig1 sig2 p =
      recoloriseWith phi_gaussian (2e-4 : ℝ) D H W gimg sig1 sig2 p := rfl

lemma kernel_entry_c8 (phi : ℝ → ℝ) {m n : ℕ} (x : Fin m → ℕ × ℕ) (y : Fin n → ℕ × ℕ)
    (i : Fin m) (j : Fin n) (hx : x i = (0, 1)) (hy : y j = (0, 0)) :
    kernel phi x y 1 2 (fun _ _ => 128) ((Real.sqrt 5)⁻¹) 1 1 i j = phi 1 * phi 0 := by
  simp only [kernel, Matrix.of_apply, hx, hy]
  rw [euclid10, u8sub_self]
  have h5 : ((1 : ℕ) : ℝ) ^ 2 + ((2 : ℕ) : ℝ) ^ 2 = 5 := by norm_num
  rw [h5, inv_mul_cancel₀ (Real.sqrt_ne_zero'.2 (by norm_num))]
  norm_num [Real.zero_rpow]

lemma clipFloor_pos {x : ℝ} (h1 : 1 ≤ x) (h2 : x ≤ 255) : 1 ≤ clipFloor x := by
  unfold clipFloor
  rw [max_eq_right (by linarith : (0 : ℝ) ≤ x), min_eq_right h2]
  have hf : (1 : ℤ) ≤ ⌊x⌋ := Int.le_floor.2 (by exact_mod_cast h1)
  omega

/-- C8 counterexample: on a concrete input the output of the entry
point differs from the output of the same pipeline run with the
Wendland kernel, so no input makes the entry point evaluate with the
Wendland kernel: the sample sits at distance 1 (in normalized units)
from the probed pixel, where the Wendland factor is exactly 0 while
the gaussian factor exp(-1) still transports a visible amount of
colour. -/
theorem C8_wendland_never_evaluated :
    recolorise (fun _ : Fin 1 => ⟨(0, 0), fun _ => 255⟩) 1 2 (fun _ _ _ => 128)
        ((Real.sqrt 5)⁻¹) 1 1 0 1 0 ≠
      recoloriseWith phi_wendland (2e-4 : ℝ) (fun _ : Fin 1 => ⟨(0, 0), fun _ => 255⟩) 1 2
        (fun _ _ _ => 128) ((Real.sqrt 5)⁻¹) 1 1 0 1 0 := by
  have hw : recoloriseWith phi_wendland (2e-4 : ℝ) (fun _ : Fin 1 => ⟨(0, 0), fun _ => 255⟩) 1 2
      (fun _ _ _ => 128) ((Real.sqrt 5)⁻¹) 1 1 0 1 0 = 0 := by
    rw [recoloriseWith_apply, Fin.sum_univ_one,
      kernel_entry_c8 phi_wendland _ _ _ _ (by decide) rfl,
      phi_wendland_of_one_le le_rfl]
    norm_num [clipFloor]
  have hg : recolorise (fun _ : Fin 1 => ⟨(0, 0), fun _ => 255⟩) 1 2 (fun _ _ _ => 128)
      ((Real.sqrt 5)⁻¹) 1 1 0 1 0 =
      clipFloor (Real.exp (-1) * ((1 + 2e-4 : ℝ)⁻¹ * 255)) := by
    unfold recolorise
    rw [recoloriseWith_apply, Fin.sum_univ_one,
      compute_as_single _ 1 2 _ phi_gaussian (2e-4 : ℝ) ((Real.sqrt 5)⁻¹) 1 1 one_ne_zero
        phi_gaussian_zero,
      kernel_entry_c8 phi_gaussian _ _ _ _ (by decide) rfl, phi_gaussian_zero]
    norm_num [phi_gaussian, Matrix.of_apply]
  rw [hw, hg]
  have hE1 := Real.exp_one_lt_d9
  have hE2 := Real.exp_one_gt_d9
  have hEpos := Real.exp_pos 1
  have hx1 : (1 : ℝ) ≤ Real.exp (-1) * ((1 + 2e-4 : ℝ)⁻¹ * 255) := by
    rw [Real.exp_neg, inv_mul_eq_div, le_div_iff₀ hEpos]
    have hc : (3 : ℝ) ≤ (1 + 2e-4 : ℝ)⁻¹ * 255 := by norm_num
    linarith
  have hx2 : Real.exp (-1) * ((1 + 2e-4 : ℝ)⁻¹ * 255) ≤ 255 := by
    rw [Real.exp_neg, inv_mul_eq_div, div_le_iff₀ hEpos]
    have hc : (1 + 2e-4 : ℝ)⁻¹ * 255 ≤ 255 := by norm_num
    linarith
  have hpos := clipFloor_pos hx1 hx2
  omega

end Recolor
